import Mathlib

/-!
Verification of the spreadsheet preview/export pipeline implemented in
`src/excel-extractor/src/app/page.tsx`.

The page's pure data transformations — normalising decoded sheet rows into
header-keyed records (`buildSheetData`), the upload state transitions
(`handleFile`), the preview filter (`filteredRows`) and the texts produced by
the JSON/CSV exports (`downloadAsJson` / `downloadAsCsv`) — are embedded below
as executable Lean definitions, and the specification's claims about them are
proved or refuted.

Cells are modelled as strings: the page decodes sheets with
`sheet_to_json(sheet, { header: 1, raw: false, defval: "" })`, which formats
every cell as text and fills gaps inside a row with `""`.  A JavaScript object
`Record<string, unknown>` is modelled as an association list in key insertion
order; assigning to an existing key updates the stored value in place
(`upsert` below), assigning a fresh key appends it, exactly as JavaScript
objects behave.
-/

namespace ExcelExtractor

/-- One header-keyed record (a JavaScript object), in key insertion order. -/
abbrev Record := List (String × String)

/-- The keys of a record, in order. -/
def keysOf (r : Record) : List String := r.map Prod.fst

/-- JavaScript object assignment `record[k] = v`: if `k` is already a key its
value is updated in place, otherwise the pair is appended. -/
def upsert : Record → String → String → Record
  | [], k, v => [(k, v)]
  | (k', v') :: rest, k, v =>
    if k' = k then (k, v) :: rest else (k', v') :: upsert rest k v

/-- `String.prototype.trim`: remove leading and trailing whitespace. -/
def strTrim (s : String) : String :=
  String.mk (((s.data.dropWhile Char.isWhitespace).reverse.dropWhile Char.isWhitespace).reverse)

/-- Header synthesis for one cell of the first row, from
`cell?.toString()?.trim() || Column (index+1)` in `buildSheetData`
(an empty trimmed string is falsy in JavaScript, so it is replaced by the
synthetic label). -/
def mkHeader (cell : String) (index : Nat) : String :=
  if strTrim cell = "" then "Column " ++ toString (index + 1) else strTrim cell

/-- `headerRow.map((cell, index) => ...)` with a running 0-based index. -/
def mkHeadersFrom : Nat → List String → List String
  | _, [] => []
  | i, c :: t => mkHeader c i :: mkHeadersFrom (i + 1) t

/-- The loop `headers.forEach((header, index) => record[header] = row[index] ?? "")`
from `buildSheetData`, iterating the headers with a running index. -/
def buildRecordAux (row : List String) : Nat → Record → List String → Record
  | _, acc, [] => acc
  | i, acc, h :: hs => buildRecordAux row (i + 1) (upsert acc h (row.getD i "")) hs

/-- One data row mapped to a header-keyed record. -/
def buildRecord (headers : List String) (row : List String) : Record :=
  buildRecordAux row 0 [] headers

/-- The `SheetRows` shape of `page.tsx`. -/
structure SheetRows where
  name : String
  headers : List String
  rows : List Record
  rowCount : Nat
  columnCount : Nat
deriving DecidableEq

/-- Normalisation of one decoded sheet (the body of the `map` in
`buildSheetData`): an empty sheet yields the all-empty `SheetRows`; otherwise
the first row becomes the headers and the remaining rows become records. -/
def buildSheet (name : String) (rawRows : List (List String)) : SheetRows :=
  match rawRows with
  | [] => { name := name, headers := [], rows := [], rowCount := 0, columnCount := 0 }
  | headerRow :: dataRows =>
    let headers := mkHeadersFrom 0 headerRow
    let rows := dataRows.map (buildRecord headers)
    { name := name, headers := headers, rows := rows,
      rowCount := rows.length, columnCount := headers.length }

/-- A decoded workbook: the sheets in `SheetNames` order, each already decoded
to its raw rows (the result of `XLSX.read` composed with `sheet_to_json`). -/
abbrev RawWorkbook := List (String × List (List String))

/-- `buildSheetData`: normalise every sheet of the decoded workbook. -/
def buildSheetData (wb : RawWorkbook) : List SheetRows :=
  wb.map fun p => buildSheet p.1 p.2

/-- The extension allow-list of `page.tsx`. -/
def allowedExtensions : List String := [".xlsx", ".xls", ".csv", ".ods"]

/-- `maxRowsPreview` from `page.tsx`. -/
def maxRowsPreview : Nat := 200

/-- Character-wise lower-casing, modelling `String.prototype.toLowerCase`
(they agree on ASCII, which covers extensions and the filter examples). -/
def lowerStr (s : String) : String := String.mk (s.data.map Char.toLower)

/-- `isValidFileType`: some allowed extension is a (case-insensitive) suffix
of the file name. -/
def isValidFileType (fileName : String) : Bool :=
  allowedExtensions.any fun ext => ext.data.isSuffixOf (lowerStr fileName).data

/-- The `UploadError` shape (title + detail) of `page.tsx`. -/
structure UploadError where
  title : String
  detail : String
deriving DecidableEq

/-- The error stored by the invalid-file-type branch of `handleFile`. -/
def invalidFileTypeError : UploadError :=
  { title := "गलत फ़ाइल फॉर्मेट",
    detail := "कृपया इन फाइल फॉर्मेट्स में से एक चुनें: " ++ String.intercalate ", " allowedExtensions }

/-- The error stored when the decoded workbook holds no sheets. -/
def emptyDataError : UploadError :=
  { title := "कोई डेटा नहीं मिला", detail := "इस फ़ाइल में पढ़ने योग्य डेटा उपलब्ध नहीं है।" }

/-- Title of the error stored by the `catch` branch of `handleFile`. -/
def readFailTitle : String := "पढ़ाई असफल"

/-- The React state of the page: the five `useState` hooks of `Home`. -/
structure UIState where
  selectedSheets : List SheetRows
  activeSheetIndex : Nat
  fileMeta : Option String
  error : Option UploadError
  searchTerm : String
deriving DecidableEq

/-- The upload operation `handleFile`, as a state transition.  The selected
file is given by its name, and the combined outcome of
`readFileAsArrayBuffer` + `XLSX.read` + `sheet_to_json` (the only effectful
steps) is given as an `Except`: `.error msg` when the read or the decode
throws (with the thrown message), `.ok wb` when decoding succeeds. -/
def handleFile (st : UIState) (fileName : String)
    (parseResult : Except String RawWorkbook) : UIState :=
  if ¬ isValidFileType fileName then
    { st with error := some invalidFileTypeError }
  else
    match parseResult with
    | .error msg =>
      { st with error := some { title := readFailTitle, detail := msg },
                selectedSheets := [], fileMeta := none }
    | .ok wb =>
      let sheets := buildSheetData wb
      if sheets.isEmpty then
        { st with error := some emptyDataError, selectedSheets := [], fileMeta := none }
      else
        { st with selectedSheets := sheets, activeSheetIndex := 0,
                  fileMeta := some fileName, error := none }

/-- Clicking a sheet in the sidebar: `setActiveSheetIndex(index)`. -/
def setActiveSheet (st : UIState) (i : Nat) : UIState :=
  { st with activeSheetIndex := i }

/-- `currentSheet = selectedSheets[activeSheetIndex]`. -/
def currentSheet (st : UIState) : Option SheetRows :=
  st.selectedSheets[st.activeSheetIndex]?

/-- Substring test on character lists: `containsSub pat s` holds when `pat`
occurs contiguously inside `s` (the semantics of `String.prototype.includes`). -/
def containsSub (pat : List Char) : List Char → Bool
  | [] => pat.isPrefixOf []
  | c :: t => pat.isPrefixOf (c :: t) || containsSub pat t

/-- `s.includes(pat)` on strings. -/
def strIncludes (s pat : String) : Bool := containsSub pat.data s.data

/-- One record matches a (already lower-cased) search term when some field
value, lower-cased, contains it:
`Object.values(row).some(v => v.toString().toLowerCase().includes(term))`. -/
def rowMatches (term : String) (r : Record) : Bool :=
  r.any fun kv => strIncludes (lowerStr kv.2) term

/-- The `filteredRows` memo, as a function of the active sheet's records and
the raw search term. -/
def filteredRowsOf (rows : List Record) (searchTerm : String) : List Record :=
  if searchTerm = "" then rows.take maxRowsPreview
  else (rows.filter (rowMatches (lowerStr searchTerm))).take maxRowsPreview

/-- The `filteredRows` memo on the whole UI state (empty when no sheet is
active). -/
def filteredRows (st : UIState) : List Record :=
  match currentSheet st with
  | none => []
  | some sheet => filteredRowsOf sheet.rows st.searchTerm

/-! ### CSV export

`downloadAsCsv` in `page.tsx` is
`sheet_to_csv(json_to_sheet(sheet.rows))`.  Both functions come from the
external `xlsx` library (whose code is not part of this repository); they are
modelled here from that library's documented behaviour: `json_to_sheet`
derives the column list from the record keys in order of first appearance
(an empty record list yields an empty worksheet, hence no header row), writes
the column list as the first row and one row per record below it, and
`sheet_to_csv` renders rows comma-separated and newline-terminated, quoting a
field iff it contains a comma, a quote or a newline, doubling inner quotes. -/

/-- Join strings with a separator (`Array.prototype.join` semantics). -/
def joinWith (sep : String) : List String → String
  | [] => ""
  | [x] => x
  | x :: y :: t => x ++ sep ++ joinWith sep (y :: t)

/-- Double every quote character (CSV quoting of the field body). -/
def dupQuotes : List Char → List Char
  | [] => []
  | c :: t => (if c = '"' then ['"', '"'] else [c]) ++ dupQuotes t

/-- Quote one CSV field when it contains a separator, quote or newline. -/
def csvQuote (s : String) : String :=
  if s.data.any (fun c => c = ',' || c = '"' || c = '\n') then
    String.mk ('"' :: (dupQuotes s.data ++ ['"']))
  else s

/-- Render one CSV row. -/
def csvRowText (cells : List String) : String :=
  joinWith "," (cells.map csvQuote)

/-- Accumulate the keys of one record that are not yet column names, in
order (`json_to_sheet` header discovery for one record). -/
def addRowKeys (acc : List String) (r : Record) : List String :=
  r.foldl (fun a kv => if kv.1 ∈ a then a else a ++ [kv.1]) acc

/-- The columns `json_to_sheet` derives from the records: all keys in order
of first appearance. -/
def csvHeadersOf (rows : List Record) : List String :=
  rows.foldl addRowKeys []

/-- The cell a record contributes to a column: its value for that key, or the
empty string when the key is absent. -/
def lookupCell (r : Record) (k : String) : String :=
  match r with
  | [] => ""
  | kv :: t => if kv.1 = k then kv.2 else lookupCell t k

/-- The CSV text produced by `downloadAsCsv` for a record list: derived
header row followed by one row per record, each row newline-terminated; an
empty record list produces no rows at all. -/
def downloadAsCsvText (rows : List Record) : String :=
  match rows with
  | [] => ""
  | _ =>
    joinWith "\n"
      (csvRowText (csvHeadersOf rows) ::
        rows.map fun r => csvRowText ((csvHeadersOf rows).map (lookupCell r))) ++ "\n"

/-! ### JSON export

`downloadAsJson` serialises `sheet.rows` with `JSON.stringify(rows, null, 2)`.
The serialiser is modelled character-exactly: an array of flat objects with
string values, two-space indentation, and `JSON.stringify` string escaping
(`"`, `\` and control characters escaped, control characters other than the
named ones as `\u00XX` with lower-case hex). -/

/-- Lower-case hexadecimal digit. -/
def hexDigit (n : Nat) : Char :=
  if n < 10 then Char.ofNat (48 + n) else Char.ofNat (97 + (n - 10))

/-- `JSON.stringify` escaping of one character. -/
def escChar (c : Char) : List Char :=
  if c = '"' then ['\\', '"']
  else if c = '\\' then ['\\', '\\']
  else if c = '\n' then ['\\', 'n']
  else if c = '\r' then ['\\', 'r']
  else if c = '\t' then ['\\', 't']
  else if c = Char.ofNat 8 then ['\\', 'b']
  else if c = Char.ofNat 12 then ['\\', 'f']
  else if c.toNat < 32 then
    ['\\', 'u', '0', '0', hexDigit (c.toNat / 16), hexDigit (c.toNat % 16)]
  else [c]

/-- Escape a whole character list. -/
def escList : List Char → List Char
  | [] => []
  | c :: t => escChar c ++ escList t

/-- A JSON string literal, as characters. -/
def jsonStringChars (s : String) : List Char :=
  '"' :: (escList s.data ++ ['"'])

/-- One `"key": "value"` member at indentation 4. -/
def memberChars (kv : String × String) : List Char :=
  ' ' :: ' ' :: ' ' :: ' ' :: (jsonStringChars kv.1 ++ (':' :: ' ' :: jsonStringChars kv.2))

/-- Join character lists with a separator. -/
def joinSep (sep : List Char) : List (List Char) → List Char
  | [] => []
  | [x] => x
  | x :: y :: t => x ++ sep ++ joinSep sep (y :: t)

/-- One record as a pretty JSON object at array depth (members at
indentation 4, closing brace at indentation 2). -/
def jsonRecordChars (r : Record) : List Char :=
  match r with
  | [] => ['{', '}']
  | _ =>
    '{' :: '\n' :: (joinSep [',', '\n'] (r.map memberChars) ++ ['\n', ' ', ' ', '}'])

/-- The full pretty array, as characters. -/
def rowsChars (rows : List Record) : List Char :=
  match rows with
  | [] => ['[', ']']
  | _ =>
    '[' :: '\n' ::
      (joinSep [',', '\n'] (rows.map fun r => ' ' :: ' ' :: jsonRecordChars r) ++ ['\n', ']'])

/-- `JSON.stringify(rows, null, 2)`. -/
def jsonStringifyRows (rows : List Record) : String :=
  String.mk (rowsChars rows)

/-- The text of the `.json` download for a sheet: its full, unfiltered record
list serialised (`downloadAsJson` in `page.tsx`). -/
def downloadAsJsonText (sheet : SheetRows) : String :=
  jsonStringifyRows sheet.rows

/-- The JSON artifact the export buttons would produce in a given UI state
(`none` when no sheet is active, mirroring the disabled buttons). -/
def exportJsonOf (st : UIState) : Option String :=
  (currentSheet st).map downloadAsJsonText

/-- The CSV artifact the export buttons would produce in a given UI state. -/
def exportCsvOf (st : UIState) : Option String :=
  (currentSheet st).map fun sheet => downloadAsCsvText sheet.rows

/-! ### JSON parsing

`JSON.parse`, modelled on the sublanguage the export emits: arrays of flat
objects whose values are strings.  Whitespace is skipped between tokens,
string literals support the full JSON escape set (`\" \\ \/ \n \r \t \b \f`
and `\uXXXX`), unescaped control characters are rejected, objects are built
with JavaScript assignment semantics (`upsert`, so a duplicate key keeps its
first position and last value), and trailing input is rejected.  Input
outside the sublanguage (numbers, nested values, ...) is rejected rather
than parsed; the export never produces it. -/

/-- JSON insignificant whitespace. -/
def isWsChar (c : Char) : Bool :=
  c = ' ' || c = '\n' || c = '\t' || c = '\r'

/-- Skip leading whitespace. -/
def skipWs : List Char → List Char
  | [] => []
  | c :: t => if isWsChar c then skipWs t else c :: t

/-- One hexadecimal digit (for `\uXXXX`). -/
def parseHexDigit (c : Char) : Option Nat :=
  if 48 ≤ c.toNat ∧ c.toNat ≤ 57 then some (c.toNat - 48)
  else if 97 ≤ c.toNat ∧ c.toNat ≤ 102 then some (c.toNat - 87)
  else if 65 ≤ c.toNat ∧ c.toNat ≤ 70 then some (c.toNat - 55)
  else none

/-- The single-character JSON escapes. -/
def unescapeChar (e : Char) : Option Char :=
  if e = '"' then some '"'
  else if e = '\\' then some '\\'
  else if e = '/' then some '/'
  else if e = 'n' then some '\n'
  else if e = 'r' then some '\r'
  else if e = 't' then some '\t'
  else if e = 'b' then some (Char.ofNat 8)
  else if e = 'f' then some (Char.ofNat 12)
  else none

/-- Parse the body of a string literal (after the opening quote), returning
the decoded characters and the input after the closing quote. -/
def parseStringBody : List Char → Option (List Char × List Char)
  | [] => none
  | c :: t =>
    if c = '"' then some ([], t)
    else if c = '\\' then
      match t with
      | [] => none
      | e :: t2 =>
        if e = 'u' then
          match t2 with
          | h1 :: h2 :: h3 :: h4 :: t3 =>
            match parseHexDigit h1, parseHexDigit h2, parseHexDigit h3, parseHexDigit h4 with
            | some d1, some d2, some d3, some d4 =>
              (parseStringBody t3).map fun p =>
                (Char.ofNat (((d1 * 16 + d2) * 16 + d3) * 16 + d4) :: p.1, p.2)
            | _, _, _, _ => none
          | _ => none
        else
          match unescapeChar e with
          | some d => (parseStringBody t2).map fun p => (d :: p.1, p.2)
          | none => none
    else if c.toNat < 32 then none
    else (parseStringBody t).map fun p => (c :: p.1, p.2)

/-- Parse one `"key": "value"` member. -/
def parseMember (cs : List Char) : Option ((String × String) × List Char) :=
  match skipWs cs with
  | [] => none
  | c :: t =>
    if c = '"' then
      match parseStringBody t with
      | none => none
      | some (k, r1) =>
        match skipWs r1 with
        | [] => none
        | c2 :: r2 =>
          if c2 = ':' then
            match skipWs r2 with
            | [] => none
            | c3 :: r3 =>
              if c3 = '"' then
                match parseStringBody r3 with
                | none => none
                | some (v, r4) => some ((String.mk k, String.mk v), r4)
              else none
          else none
    else none

/-- Parse the members of a non-empty object, building the object with
JavaScript assignment semantics; the fuel bounds the number of members. -/
def parseMembers : Nat → Record → List Char → Option (Record × List Char)
  | 0, _, _ => none
  | fuel + 1, acc, cs =>
    match parseMember cs with
    | none => none
    | some (kv, rest) =>
      match skipWs rest with
      | [] => none
      | c :: t =>
        if c = ',' then parseMembers fuel (upsert acc kv.1 kv.2) t
        else if c = '}' then some (upsert acc kv.1 kv.2, t)
        else none

/-- Parse one object. -/
def parseObject (fuel : Nat) (cs : List Char) : Option (Record × List Char) :=
  match skipWs cs with
  | [] => none
  | c :: t =>
    if c = '{' then
      match skipWs t with
      | [] => none
      | c2 :: r =>
        if c2 = '}' then some ([], r)
        else parseMembers fuel [] t
    else none

/-- Parse the elements of a non-empty array; the fuel bounds the number of
elements and members. -/
def parseElements : Nat → List Record → List Char → Option (List Record × List Char)
  | 0, _, _ => none
  | fuel + 1, acc, cs =>
    match parseObject fuel cs with
    | none => none
    | some (obj, rest) =>
      match skipWs rest with
      | [] => none
      | c :: t =>
        if c = ',' then parseElements fuel (acc ++ [obj]) t
        else if c = ']' then some (acc ++ [obj], t)
        else none

/-- `JSON.parse` on the export sublanguage: a whole input parsing to an array
of flat string-valued objects.  The fuel `length + 1` always suffices, since
every member consumes at least one character. -/
def parseJsonRecords (s : String) : Option (List Record) :=
  match skipWs s.data with
  | [] => none
  | c :: t =>
    if c = '[' then
      match skipWs t with
      | [] => none
      | c2 :: r =>
        if c2 = ']' then (if skipWs r = [] then some [] else none)
        else
          match parseElements (s.data.length + 1) [] t with
          | none => none
          | some (xs, rest) => if skipWs rest = [] then some xs else none
    else none

/-! ### Lemmas: JavaScript object assignment and record building -/

theorem keysOf_nil : keysOf [] = [] := rfl

theorem keysOf_cons (kv : String × String) (t : Record) :
    keysOf (kv :: t) = kv.1 :: keysOf t := rfl

theorem keysOf_append (a b : Record) : keysOf (a ++ b) = keysOf a ++ keysOf b := by
  simp [keysOf]

theorem upsert_cons_ne (k' v' k v : String) (t : Record) (h : k' ≠ k) :
    upsert ((k', v') :: t) k v = (k', v') :: upsert t k v := by
  simp [upsert, h]

theorem mem_keysOf_upsert (r : Record) (k v x : String) :
    x ∈ keysOf (upsert r k v) ↔ x ∈ keysOf r ∨ x = k := by
  induction r with
  | nil =>
    rw [show upsert [] k v = [(k, v)] from rfl, keysOf_cons, keysOf_nil]
    simp
  | cons kv t ih =>
    obtain ⟨k', v'⟩ := kv
    by_cases h : k' = k
    · subst h
      rw [show upsert ((k', v') :: t) k' v = (k', v) :: t from by simp [upsert],
        keysOf_cons, keysOf_cons]
      simp only [List.mem_cons]
      tauto
    · rw [upsert_cons_ne k' v' k v t h, keysOf_cons, keysOf_cons]
      simp only [List.mem_cons, ih]
      tauto

theorem upsert_of_not_mem (r : Record) (k v : String) (h : k ∉ keysOf r) :
    upsert r k v = r ++ [(k, v)] := by
  induction r with
  | nil => rfl
  | cons kv t ih =>
    obtain ⟨k', v'⟩ := kv
    rw [keysOf_cons] at h
    simp only [List.mem_cons] at h
    push_neg at h
    rw [upsert_cons_ne k' v' k v t (fun hh => h.1 hh.symm), ih h.2]
    rfl

theorem keysOf_upsert_of_mem (r : Record) (k v : String) (h : k ∈ keysOf r) :
    keysOf (upsert r k v) = keysOf r := by
  induction r with
  | nil => simp [keysOf_nil] at h
  | cons kv t ih =>
    obtain ⟨k', v'⟩ := kv
    by_cases hk : k' = k
    · subst hk
      rw [show upsert ((k', v') :: t) k' v = (k', v) :: t from by simp [upsert],
        keysOf_cons, keysOf_cons]
    · rw [keysOf_cons] at h
      simp only [List.mem_cons] at h
      rcases h with h | h
      · exact absurd h.symm hk
      · rw [upsert_cons_ne k' v' k v t hk, keysOf_cons, keysOf_cons, ih h]

theorem keysOf_upsert_nodup (r : Record) (k v : String) (h : (keysOf r).Nodup) :
    (keysOf (upsert r k v)).Nodup := by
  by_cases hk : k ∈ keysOf r
  · rw [keysOf_upsert_of_mem r k v hk]; exact h
  · rw [upsert_of_not_mem r k v hk, keysOf_append, keysOf_cons, keysOf_nil]
    simp [List.nodup_append, h, hk]

theorem mem_keysOf_buildRecordAux (hs : List String) :
    ∀ (i : Nat) (acc : Record) (row : List String) (x : String),
      x ∈ keysOf (buildRecordAux row i acc hs) ↔ x ∈ keysOf acc ∨ x ∈ hs := by
  induction hs with
  | nil => intro i acc row x; simp [buildRecordAux]
  | cons h t ih =>
    intro i acc row x
    simp [buildRecordAux, ih, mem_keysOf_upsert]
    tauto

theorem buildRecordAux_cons (row : List String) (i : Nat) (acc : Record)
    (h : String) (t : List String) :
    buildRecordAux row i acc (h :: t) =
      buildRecordAux row (i + 1) (upsert acc h (row.getD i "")) t := rfl

theorem mem_keysOf_buildRecord (headers row : List String) (x : String) :
    x ∈ keysOf (buildRecord headers row) ↔ x ∈ headers := by
  simp only [buildRecord, mem_keysOf_buildRecordAux, keysOf_nil,
    List.not_mem_nil, false_or]

theorem keysOf_buildRecordAux_nodup (hs : List String) :
    ∀ (i : Nat) (acc : Record) (row : List String), (keysOf acc).Nodup →
      (keysOf (buildRecordAux row i acc hs)).Nodup := by
  induction hs with
  | nil => intro i acc row h; simpa [buildRecordAux] using h
  | cons h t ih =>
    intro i acc row hacc
    exact ih _ _ _ (keysOf_upsert_nodup _ _ _ hacc)

theorem keysOf_buildRecord_nodup (headers row : List String) :
    (keysOf (buildRecord headers row)).Nodup := by
  exact keysOf_buildRecordAux_nodup headers 0 [] row (by simp [keysOf])

theorem keysOf_buildRecordAux_of_nodup (hs : List String) :
    ∀ (i : Nat) (acc : Record) (row : List String), hs.Nodup →
      (∀ h ∈ hs, h ∉ keysOf acc) →
      keysOf (buildRecordAux row i acc hs) = keysOf acc ++ hs := by
  induction hs with
  | nil => intro i acc row _ _; simp [buildRecordAux]
  | cons h t ih =>
    intro i acc row hnd hdisj
    have hnotmem : h ∉ keysOf acc := hdisj h (by simp)
    have step : upsert acc h (row.getD i "") = acc ++ [(h, row.getD i "")] :=
      upsert_of_not_mem _ _ _ hnotmem
    have hnd' : t.Nodup := (List.nodup_cons.mp hnd).2
    have hht : h ∉ t := (List.nodup_cons.mp hnd).1
    have hdisj' : ∀ k ∈ t, k ∉ keysOf (acc ++ [(h, row.getD i "")]) := by
      intro k hk
      rw [keysOf_append, keysOf_cons, keysOf_nil]
      simp only [List.mem_append, List.mem_cons, List.not_mem_nil, or_false]
      push_neg
      exact ⟨hdisj k (List.mem_cons_of_mem _ hk), fun he => hht (he ▸ hk)⟩
    calc keysOf (buildRecordAux row i acc (h :: t))
        = keysOf (buildRecordAux row (i + 1) (acc ++ [(h, row.getD i "")]) t) := by
          rw [buildRecordAux_cons, step]
      _ = keysOf (acc ++ [(h, row.getD i "")]) ++ t := ih _ _ _ hnd' hdisj'
      _ = keysOf acc ++ h :: t := by
          rw [keysOf_append, keysOf_cons, keysOf_nil]
          simp

theorem keysOf_buildRecord_of_nodup (headers row : List String) (h : headers.Nodup) :
    keysOf (buildRecord headers row) = headers := by
  have := keysOf_buildRecordAux_of_nodup headers 0 [] row h (by simp [keysOf])
  simpa [buildRecord, keysOf] using this

theorem foldl_upsert_append (r : Record) :
    ∀ acc : Record, (keysOf r).Nodup → (∀ k ∈ keysOf r, k ∉ keysOf acc) →
      List.foldl (fun a kv => upsert a kv.1 kv.2) acc r = acc ++ r := by
  induction r with
  | nil => intro acc _ _; simp
  | cons kv t ih =>
    intro acc hnd hdisj
    rw [keysOf_cons] at hnd hdisj
    have hnotmem : kv.1 ∉ keysOf acc := hdisj kv.1 (by simp)
    have hnd' : (keysOf t).Nodup := (List.nodup_cons.mp hnd).2
    have hht : kv.1 ∉ keysOf t := (List.nodup_cons.mp hnd).1
    have hdisj' : ∀ k ∈ keysOf t, k ∉ keysOf (acc ++ [kv]) := by
      intro k hk
      rw [keysOf_append, keysOf_cons, keysOf_nil]
      simp only [List.mem_append, List.mem_cons, List.not_mem_nil, or_false]
      push_neg
      exact ⟨hdisj k (List.mem_cons_of_mem _ hk), fun he => hht (he ▸ hk)⟩
    calc List.foldl (fun a kv => upsert a kv.1 kv.2) acc (kv :: t)
        = List.foldl (fun a kv => upsert a kv.1 kv.2) (acc ++ [kv]) t := by
          simp [upsert_of_not_mem acc kv.1 kv.2 hnotmem]
      _ = (acc ++ [kv]) ++ t := ih _ hnd' hdisj'
      _ = acc ++ kv :: t := by simp

/-! ### Lemmas: header synthesis -/

theorem mkHeadersFrom_length : ∀ (n : Nat) (l : List String),
    (mkHeadersFrom n l).length = l.length := by
  intro n l
  induction l generalizing n with
  | nil => rfl
  | cons c t ih => simp [mkHeadersFrom, ih]

theorem mkHeadersFrom_getD : ∀ (l : List String) (n i : Nat), i < l.length →
    (mkHeadersFrom n l).getD i "" = mkHeader (l.getD i "") (n + i) := by
  intro l
  induction l with
  | nil => intro n i h; simp at h
  | cons c t ih =>
    intro n i h
    cases i with
    | zero => simp [mkHeadersFrom]
    | succ i =>
      have hlt : i < t.length := by simpa using h
      have e : (n + 1) + i = n + (i + 1) := by omega
      calc (mkHeadersFrom n (c :: t)).getD (i + 1) ""
          = (mkHeadersFrom (n + 1) t).getD i "" := rfl
        _ = mkHeader (t.getD i "") ((n + 1) + i) := ih (n + 1) i hlt
        _ = mkHeader ((c :: t).getD (i + 1) "") (n + (i + 1)) := by
            rw [e, List.getD_cons_succ]

/-! ### Lemmas: CSV column discovery -/

theorem addRowKeys_nil (acc : List String) : addRowKeys acc [] = acc := rfl

theorem addRowKeys_cons (acc : List String) (kv : String × String) (t : Record) :
    addRowKeys acc (kv :: t) =
      addRowKeys (if kv.1 ∈ acc then acc else acc ++ [kv.1]) t := rfl

theorem addRowKeys_of_subset (r : Record) :
    ∀ acc, (∀ k ∈ keysOf r, k ∈ acc) → addRowKeys acc r = acc := by
  induction r with
  | nil => intro acc _; rfl
  | cons kv t ih =>
    intro acc hsub
    rw [keysOf_cons] at hsub
    rw [addRowKeys_cons, if_pos (hsub kv.1 (by simp))]
    exact ih acc fun k hk => hsub k (List.mem_cons_of_mem _ hk)

theorem addRowKeys_of_disjoint (r : Record) :
    ∀ acc, (keysOf r).Nodup → (∀ k ∈ keysOf r, k ∉ acc) →
      addRowKeys acc r = acc ++ keysOf r := by
  induction r with
  | nil => intro acc _ _; simp [addRowKeys_nil, keysOf_nil]
  | cons kv t ih =>
    intro acc hnd hdisj
    rw [keysOf_cons] at hnd hdisj
    have h1 : kv.1 ∉ acc := hdisj kv.1 (by simp)
    rw [addRowKeys_cons, if_neg h1]
    have hnd' := (List.nodup_cons.mp hnd).2
    have hht := (List.nodup_cons.mp hnd).1
    have hdisj' : ∀ k ∈ keysOf t, k ∉ acc ++ [kv.1] := by
      intro k hk
      simp only [List.mem_append, List.mem_cons, List.not_mem_nil, or_false]
      push_neg
      exact ⟨hdisj k (List.mem_cons_of_mem _ hk), fun he => hht (he ▸ hk)⟩
    rw [ih _ hnd' hdisj', keysOf_cons]
    simp

theorem foldl_addRowKeys_const (rows : List Record) (hdr : List String) :
    (∀ r ∈ rows, keysOf r = hdr) → List.foldl addRowKeys hdr rows = hdr := by
  induction rows with
  | nil => intro _; rfl
  | cons r t ih =>
    intro hk
    have h1 : addRowKeys hdr r = hdr :=
      addRowKeys_of_subset r hdr fun k hkk => by
        rw [hk r (by simp)] at hkk; exact hkk
    rw [List.foldl_cons, h1]
    exact ih fun r hr => hk r (List.mem_cons_of_mem _ hr)

theorem csvHeadersOf_of_keys (rows : List Record) (hdr : List String)
    (hne : rows ≠ []) (hnd : hdr.Nodup) (hk : ∀ r ∈ rows, keysOf r = hdr) :
    csvHeadersOf rows = hdr := by
  cases rows with
  | nil => exact absurd rfl hne
  | cons r0 rest =>
    have h0 : keysOf r0 = hdr := hk r0 (by simp)
    have hstep : addRowKeys [] r0 = hdr := by
      have := addRowKeys_of_disjoint r0 [] (h0 ▸ hnd) (by simp)
      simpa [h0] using this
    show List.foldl addRowKeys [] (r0 :: rest) = hdr
    rw [List.foldl_cons, hstep]
    exact foldl_addRowKeys_const rest hdr fun r hr => hk r (List.mem_cons_of_mem _ hr)

/-! ### Lemmas: substring containment -/

theorem isPrefixOf_eq_true_iff : ∀ (p s : List Char),
    p.isPrefixOf s = true ↔ ∃ t, s = p ++ t := by
  intro p
  induction p with
  | nil => intro s; simp [List.isPrefixOf]
  | cons a p ih =>
    intro s
    cases s with
    | nil => simp [List.isPrefixOf]
    | cons b s' =>
      simp only [List.isPrefixOf, Bool.and_eq_true, beq_iff_eq, ih,
        List.cons_append, List.cons.injEq]
      constructor
      · rintro ⟨rfl, t, rfl⟩; exact ⟨t, rfl, rfl⟩
      · rintro ⟨t, rfl, rfl⟩; exact ⟨rfl, t, rfl⟩

theorem containsSub_iff (pat s : List Char) :
    containsSub pat s = true ↔ ∃ pre post, s = pre ++ pat ++ post := by
  induction s with
  | nil =>
    simp only [containsSub, isPrefixOf_eq_true_iff]
    constructor
    · rintro ⟨t, ht⟩; exact ⟨[], t, by simpa using ht⟩
    · rintro ⟨pre, post, hp⟩
      rcases List.append_eq_nil.mp (List.append_eq_nil.mp hp.symm).1 with ⟨h1, h2⟩
      exact ⟨post, by simp [h2, (List.append_eq_nil.mp hp.symm).2]⟩
  | cons c t ih =>
    simp only [containsSub, Bool.or_eq_true, isPrefixOf_eq_true_iff, ih]
    constructor
    · rintro (⟨u, hu⟩ | ⟨pre, post, hp⟩)
      · exact ⟨[], u, by simpa using hu⟩
      · exact ⟨c :: pre, post, by simp [hp]⟩
    · rintro ⟨pre, post, hp⟩
      cases pre with
      | nil => exact Or.inl ⟨post, by simpa using hp⟩
      | cons a pre' =>
        injection hp with h1 h2
        exact Or.inr ⟨pre', post, h2⟩

/-! ### Lemmas: whitespace skipping -/

theorem skipWs_nil : skipWs [] = [] := rfl

theorem skipWs_ws (c : Char) (t : List Char) (h : isWsChar c = true) :
    skipWs (c :: t) = skipWs t := by
  rw [skipWs.eq_def]; simp [h]

theorem skipWs_not_ws (c : Char) (t : List Char) (h : isWsChar c = false) :
    skipWs (c :: t) = c :: t := by
  rw [skipWs.eq_def]; simp [h]

theorem skipWs_space (t : List Char) : skipWs (' ' :: t) = skipWs t :=
  skipWs_ws _ _ rfl

theorem skipWs_newline (t : List Char) : skipWs ('\n' :: t) = skipWs t :=
  skipWs_ws _ _ rfl

theorem skipWs_quote (t : List Char) : skipWs ('"' :: t) = '"' :: t :=
  skipWs_not_ws _ _ rfl

theorem skipWs_colon (t : List Char) : skipWs (':' :: t) = ':' :: t :=
  skipWs_not_ws _ _ rfl

theorem skipWs_comma (t : List Char) : skipWs (',' :: t) = ',' :: t :=
  skipWs_not_ws _ _ rfl

theorem skipWs_lbrace (t : List Char) : skipWs ('{' :: t) = '{' :: t :=
  skipWs_not_ws _ _ rfl

theorem skipWs_rbrace (t : List Char) : skipWs ('}' :: t) = '}' :: t :=
  skipWs_not_ws _ _ rfl

theorem skipWs_lbracket (t : List Char) : skipWs ('[' :: t) = '[' :: t :=
  skipWs_not_ws _ _ rfl

theorem skipWs_rbracket (t : List Char) : skipWs (']' :: t) = ']' :: t :=
  skipWs_not_ws _ _ rfl

theorem string_eta (s : String) : String.mk s.data = s := rfl

/-! ### Lemmas: parsing JSON string literals -/

theorem parseStringBody_closeQuote (t : List Char) :
    parseStringBody ('"' :: t) = some ([], t) := by
  rw [parseStringBody.eq_def]; simp

theorem parseStringBody_plain (c : Char) (t : List Char)
    (h1 : c ≠ '"') (h2 : c ≠ '\\') (h3 : ¬ c.toNat < 32) :
    parseStringBody (c :: t) = (parseStringBody t).map fun p => (c :: p.1, p.2) := by
  rw [parseStringBody.eq_def]; simp [h1, h2, h3]

theorem parseStringBody_esc (e d : Char) (t : List Char)
    (hu : e ≠ 'u') (hd : unescapeChar e = some d) :
    parseStringBody ('\\' :: e :: t) = (parseStringBody t).map fun p => (d :: p.1, p.2) := by
  rw [parseStringBody.eq_def]; simp [hu, hd]

theorem parseHexDigit_hexDigit : ∀ a : Nat, a < 16 → parseHexDigit (hexDigit a) = some a := by
  decide

theorem parseStringBody_unicode (a b : Nat) (ha : a < 16) (hb : b < 16) (t : List Char) :
    parseStringBody ('\\' :: 'u' :: '0' :: '0' :: hexDigit a :: hexDigit b :: t) =
      (parseStringBody t).map fun p => (Char.ofNat (a * 16 + b) :: p.1, p.2) := by
  have h0 : parseHexDigit '0' = some 0 := rfl
  have h1 := parseHexDigit_hexDigit a ha
  have h2 := parseHexDigit_hexDigit b hb
  rw [parseStringBody.eq_def]
  simp [h0, h1, h2]

theorem parseStringBody_escChar (c : Char) (X : List Char) :
    parseStringBody (escChar c ++ X) = (parseStringBody X).map fun p => (c :: p.1, p.2) := by
  by_cases h1 : c = '"'
  · subst h1
    rw [show escChar '"' = ['\\', '"'] from by simp [escChar]]
    exact parseStringBody_esc '"' '"' X (by decide) (by decide)
  by_cases h2 : c = '\\'
  · subst h2
    rw [show escChar '\\' = ['\\', '\\'] from by simp [escChar]]
    exact parseStringBody_esc '\\' '\\' X (by decide) (by decide)
  by_cases h3 : c = '\n'
  · subst h3
    rw [show escChar '\n' = ['\\', 'n'] from by simp [escChar]]
    exact parseStringBody_esc 'n' '\n' X (by decide) (by decide)
  by_cases h4 : c = '\r'
  · subst h4
    rw [show escChar '\r' = ['\\', 'r'] from by simp [escChar]]
    exact parseStringBody_esc 'r' '\r' X (by decide) (by decide)
  by_cases h5 : c = '\t'
  · subst h5
    rw [show escChar '\t' = ['\\', 't'] from by simp [escChar]]
    exact parseStringBody_esc 't' '\t' X (by decide) (by decide)
  by_cases h6 : c = Char.ofNat 8
  · subst h6
    rw [show escChar (Char.ofNat 8) = ['\\', 'b'] from by simp [escChar]]
    exact parseStringBody_esc 'b' (Char.ofNat 8) X (by decide) (by decide)
  by_cases h7 : c = Char.ofNat 12
  · subst h7
    rw [show escChar (Char.ofNat 12) = ['\\', 'f'] from by simp [escChar]]
    exact parseStringBody_esc 'f' (Char.ofNat 12) X (by decide) (by decide)
  by_cases h8 : c.toNat < 32
  · rw [show escChar c =
        ['\\', 'u', '0', '0', hexDigit (c.toNat / 16), hexDigit (c.toNat % 16)] from by
        simp [escChar, h1, h2, h3, h4, h5, h6, h7, h8]]
    have ha : c.toNat / 16 < 16 := by omega
    have hb : c.toNat % 16 < 16 := by omega
    rw [show (['\\', 'u', '0', '0', hexDigit (c.toNat / 16), hexDigit (c.toNat % 16)] :
        List Char) ++ X =
        '\\' :: 'u' :: '0' :: '0' :: hexDigit (c.toNat / 16) :: hexDigit (c.toNat % 16) :: X
      from rfl]
    rw [parseStringBody_unicode _ _ ha hb X]
    have he : c.toNat / 16 * 16 + c.toNat % 16 = c.toNat := by omega
    rw [he, Char.ofNat_toNat]
  · rw [show escChar c = [c] from by simp [escChar, h1, h2, h3, h4, h5, h6, h7, h8]]
    exact parseStringBody_plain c X h1 h2 h8

theorem parseStringBody_escList (s : List Char) (rest : List Char) :
    parseStringBody (escList s ++ '"' :: rest) = some (s, rest) := by
  induction s with
  | nil => simpa [escList] using parseStringBody_closeQuote rest
  | cons c cs ih =>
    rw [show escList (c :: cs) = escChar c ++ escList cs from rfl, List.append_assoc,
      parseStringBody_escChar, ih]
    rfl

/-! ### Lemmas: parsing one member -/

theorem skipWs_memberChars (k v : String) (W : List Char) :
    skipWs (memberChars (k, v) ++ W) =
      '"' :: (escList k.data ++ ('"' :: (':' :: ' ' :: (jsonStringChars v ++ W)))) := by
  simp [memberChars, jsonStringChars, List.cons_append, List.append_assoc,
    List.singleton_append, skipWs_space, skipWs_quote]

theorem parseMember_render (kv : String × String) (Z : List Char) :
    parseMember ('\n' :: (memberChars kv ++ Z)) = some (kv, Z) := by
  obtain ⟨k, v⟩ := kv
  have hv : jsonStringChars v ++ Z = '"' :: (escList v.data ++ ('"' :: Z)) := by
    simp [jsonStringChars, List.cons_append, List.append_assoc, List.singleton_append]
  simp only [parseMember, skipWs_newline, skipWs_memberChars, parseStringBody_escList,
    skipWs_colon, skipWs_space, hv, skipWs_quote, string_eta]
  simp

/-! ### Lemmas: parsing objects and arrays -/

theorem joinSep_single (sep x : List Char) : joinSep sep [x] = x := rfl

theorem joinSep_cons2 (sep x y : List Char) (t : List (List Char)) :
    joinSep sep (x :: y :: t) = x ++ sep ++ joinSep sep (y :: t) := rfl

theorem parseMembers_render (r : Record) : ∀ (fuel : Nat) (acc : Record) (rest : List Char),
    r ≠ [] → r.length ≤ fuel →
    parseMembers fuel acc
        ('\n' :: (joinSep [',', '\n'] (r.map memberChars) ++
          ('\n' :: ' ' :: ' ' :: '}' :: rest))) =
      some (List.foldl (fun a kv => upsert a kv.1 kv.2) acc r, rest) := by
  induction r with
  | nil => intro fuel acc rest h _; exact absurd rfl h
  | cons kv t ih =>
    intro fuel acc rest _ hfuel
    cases fuel with
    | zero => simp at hfuel
    | succ f =>
      rw [parseMembers.eq_def]
      cases t with
      | nil =>
        simp only [List.map_cons, List.map_nil, joinSep_single]
        rw [parseMember_render]
        simp [skipWs_newline, skipWs_space, skipWs_rbrace]
      | cons kv2 t2 =>
        simp only [List.map_cons, joinSep_cons2, List.append_assoc, List.cons_append,
          List.nil_append]
        rw [parseMember_render]
        have hlen : (kv2 :: t2).length ≤ f := by
          simp only [List.length_cons] at hfuel ⊢; omega
        have hstep := ih f (upsert acc kv.1 kv.2) rest (by simp) hlen
        simp only [List.map_cons] at hstep
        simp [skipWs_comma, hstep]

theorem parseObject_render (r : Record) (fuel : Nat) (rest : List Char)
    (hnd : (keysOf r).Nodup) (hfuel : r.length ≤ fuel) :
    parseObject fuel ('\n' :: ' ' :: ' ' :: (jsonRecordChars r ++ rest)) = some (r, rest) := by
  cases r with
  | nil =>
    simp [parseObject, jsonRecordChars, skipWs_newline, skipWs_space, skipWs_lbrace,
      skipWs_rbrace, List.cons_append]
  | cons kv t =>
    obtain ⟨k, v⟩ := kv
    have hshape : jsonRecordChars ((k, v) :: t) ++ rest =
        '{' :: '\n' :: (joinSep [',', '\n'] (((k, v) :: t).map memberChars) ++
          ('\n' :: ' ' :: ' ' :: '}' :: rest)) := by
      simp [jsonRecordChars, List.cons_append, List.append_assoc]
    rw [hshape]
    obtain ⟨W, hW⟩ : ∃ W, joinSep [',', '\n'] (((k, v) :: t).map memberChars) ++
        ('\n' :: ' ' :: ' ' :: '}' :: rest) = memberChars (k, v) ++ W := by
      cases t with
      | nil =>
        exact ⟨'\n' :: ' ' :: ' ' :: '}' :: rest, by simp [joinSep_single]⟩
      | cons kv2 t2 =>
        exact ⟨',' :: '\n' :: (joinSep [',', '\n'] ((kv2 :: t2).map memberChars) ++
            ('\n' :: ' ' :: ' ' :: '}' :: rest)),
          by simp [List.map_cons, joinSep_cons2, List.append_assoc]⟩
    have hskip : skipWs ('\n' :: (joinSep [',', '\n'] (((k, v) :: t).map memberChars) ++
        ('\n' :: ' ' :: ' ' :: '}' :: rest))) =
        '"' :: (escList k.data ++ ('"' :: (':' :: ' ' :: (jsonStringChars v ++ W)))) := by
      rw [skipWs_newline, hW, skipWs_memberChars]
    simp only [parseObject, skipWs_newline, skipWs_space, skipWs_lbrace, hskip]
    rw [parseMembers_render ((k, v) :: t) fuel [] rest (by simp) hfuel]
    have hfold : List.foldl (fun a kv => upsert a kv.1 kv.2) [] ((k, v) :: t) =
        (k, v) :: t := by
      have := foldl_upsert_append ((k, v) :: t) [] hnd (by simp [keysOf_nil])
      simpa using this
    simp [hfold]

theorem parseElements_render (rows : List Record) :
    ∀ (fuel : Nat) (acc : List Record) (rest : List Char),
      rows ≠ [] →
      (∀ r ∈ rows, (keysOf r).Nodup) →
      (∀ r ∈ rows, r.length + rows.length ≤ fuel) →
      parseElements fuel acc
          ('\n' :: (joinSep [',', '\n'] (rows.map fun r => ' ' :: ' ' :: jsonRecordChars r) ++
            ('\n' :: ']' :: rest))) =
        some (acc ++ rows, rest) := by
  induction rows with
  | nil => intro _ _ _ h _ _; exact absurd rfl h
  | cons r0 rt ih =>
    intro fuel acc rest _ hnd hfuel
    cases fuel with
    | zero =>
      have := hfuel r0 (by simp)
      simp at this
    | succ f =>
      rw [parseElements.eq_def]
      have hf0 : r0.length ≤ f := by
        have := hfuel r0 (by simp)
        simp only [List.length_cons] at this
        omega
      cases rt with
      | nil =>
        simp only [List.map_cons, List.map_nil, joinSep_single, List.cons_append]
        rw [parseObject_render r0 f _ (hnd r0 (by simp)) hf0]
        simp [skipWs_newline, skipWs_rbracket]
      | cons r1 rt2 =>
        simp only [List.map_cons, joinSep_cons2, List.cons_append, List.append_assoc,
          List.nil_append]
        rw [parseObject_render r0 f _ (hnd r0 (by simp)) hf0]
        simp only [skipWs_comma]
        have hfuel' : ∀ r ∈ r1 :: rt2, r.length + (r1 :: rt2).length ≤ f := by
          intro r hr
          have := hfuel r (List.mem_cons_of_mem _ hr)
          simp only [List.length_cons] at this ⊢
          omega
        have hstep := ih f (acc ++ [r0]) rest (by simp)
          (fun r hr => hnd r (List.mem_cons_of_mem _ hr)) hfuel'
        simp only [List.map_cons] at hstep
        simp [skipWs_comma, hstep]

/-! ### Lemmas: fuel bounds -/

theorem joinSep_len_ge1_all (sep : List Char) :
    ∀ ls : List (List Char), (∀ x ∈ ls, 1 ≤ x.length) →
      ls.length ≤ (joinSep sep ls).length := by
  intro ls
  induction ls with
  | nil => intro _; simp
  | cons x t ih =>
    intro hall
    cases t with
    | nil => simpa [joinSep_single] using hall x (by simp)
    | cons y t2 =>
      rw [joinSep_cons2]
      have h1 := hall x (by simp)
      have h2 := ih fun z hz => hall z (List.mem_cons_of_mem _ hz)
      simp only [List.length_cons, List.length_append] at h2 ⊢
      omega

theorem joinSep_len_ge4_all (sep : List Char) :
    ∀ ls : List (List Char), (∀ x ∈ ls, 4 ≤ x.length) →
      4 * ls.length ≤ (joinSep sep ls).length := by
  intro ls
  induction ls with
  | nil => intro _; simp
  | cons x t ih =>
    intro hall
    cases t with
    | nil => simpa [joinSep_single] using hall x (by simp)
    | cons y t2 =>
      rw [joinSep_cons2]
      have h1 := hall x (by simp)
      have h2 := ih fun z hz => hall z (List.mem_cons_of_mem _ hz)
      simp only [List.length_cons, List.length_append] at h2 ⊢
      omega

theorem joinSep_len_ge4_mem (sep : List Char) :
    ∀ (ls : List (List Char)) (x : List Char), x ∈ ls → (∀ y ∈ ls, 4 ≤ y.length) →
      x.length + 4 * ls.length ≤ (joinSep sep ls).length + 4 := by
  intro ls
  induction ls with
  | nil => intro x hx _; simp at hx
  | cons z t ih =>
    intro x hx hall
    rcases List.mem_cons.mp hx with rfl | hx'
    · cases t with
      | nil => simp [joinSep_single]
      | cons y t2 =>
        rw [joinSep_cons2]
        have h2 := joinSep_len_ge4_all sep (y :: t2)
          fun w hw => hall w (List.mem_cons_of_mem _ hw)
        simp only [List.length_cons, List.length_append] at h2 ⊢
        omega
    · have htne : t ≠ [] := by
        intro he; rw [he] at hx'; simp at hx'
      cases t with
      | nil => exact absurd rfl htne
      | cons y t2 =>
        rw [joinSep_cons2]
        have h1 := hall z (by simp)
        have h2 := ih x hx' fun w hw => hall w (List.mem_cons_of_mem _ hw)
        simp only [List.length_cons, List.length_append] at h2 ⊢
        omega

theorem memberChars_len_ge1 (kv : String × String) : 1 ≤ (memberChars kv).length := by
  simp [memberChars]

theorem jsonRecordChars_len_ge2 (r : Record) : 2 ≤ (jsonRecordChars r).length := by
  cases r with
  | nil => simp [jsonRecordChars]
  | cons kv t => simp [jsonRecordChars]

theorem jsonRecordChars_len_ge_len (r : Record) : r.length ≤ (jsonRecordChars r).length := by
  cases r with
  | nil => simp [jsonRecordChars]
  | cons kv t =>
    have h1 := joinSep_len_ge1_all [',', '\n'] ((kv :: t).map memberChars)
      fun x hx => by
        obtain ⟨kv', _, rfl⟩ := List.mem_map.mp hx
        exact memberChars_len_ge1 kv'
    simp only [jsonRecordChars, List.length_cons, List.length_append, List.length_map] at h1 ⊢
    omega

theorem rowsChars_fuel_ok (rows : List Record) :
    ∀ r ∈ rows, r.length + rows.length ≤ (rowsChars rows).length + 1 := by
  intro r hr
  cases rows with
  | nil => simp at hr
  | cons r0 rt =>
    have hx : (' ' :: ' ' :: jsonRecordChars r) ∈
        ((r0 :: rt).map fun z => ' ' :: ' ' :: jsonRecordChars z) :=
      List.mem_map_of_mem _ hr
    have hall : ∀ y ∈ ((r0 :: rt).map fun z => ' ' :: ' ' :: jsonRecordChars z),
        4 ≤ y.length := by
      intro y hy
      obtain ⟨z, _, rfl⟩ := List.mem_map.mp hy
      have := jsonRecordChars_len_ge2 z
      simp only [List.length_cons]
      omega
    have h2 := joinSep_len_ge4_mem [',', '\n'] _ _ hx hall
    have h3 := jsonRecordChars_len_ge_len r
    simp only [rowsChars, List.length_cons, List.length_append, List.length_map] at h2 ⊢
    omega

/-! ### The JSON round trip -/

theorem parse_stringify (rows : List Record) (hnd : ∀ r ∈ rows, (keysOf r).Nodup) :
    parseJsonRecords (jsonStringifyRows rows) = some rows := by
  cases rows with
  | nil => decide
  | cons r0 rt =>
    have hdata : (jsonStringifyRows (r0 :: rt)).data = rowsChars (r0 :: rt) := rfl
    have hshape : rowsChars (r0 :: rt) =
        '[' :: '\n' :: (joinSep [',', '\n'] ((r0 :: rt).map fun z =>
          ' ' :: ' ' :: jsonRecordChars z) ++ ('\n' :: ']' :: [])) := by
      simp [rowsChars, List.append_assoc, List.cons_append]
    obtain ⟨W, hW⟩ : ∃ W, joinSep [',', '\n'] ((r0 :: rt).map fun z =>
        ' ' :: ' ' :: jsonRecordChars z) ++ ('\n' :: ']' :: []) =
        ' ' :: ' ' :: (jsonRecordChars r0 ++ W) := by
      cases rt with
      | nil => exact ⟨'\n' :: ']' :: [], by simp [joinSep_single]⟩
      | cons r1 rt2 =>
        exact ⟨',' :: '\n' :: (joinSep [',', '\n'] ((r1 :: rt2).map fun z =>
            ' ' :: ' ' :: jsonRecordChars z) ++ ('\n' :: ']' :: [])),
          by simp [List.map_cons, joinSep_cons2, List.append_assoc]⟩
    obtain ⟨Y, hY⟩ : ∃ Y, jsonRecordChars r0 = '{' :: Y := by
      cases r0 with
      | nil => exact ⟨_, rfl⟩
      | cons kv t => exact ⟨_, rfl⟩
    have hskip : skipWs ('\n' :: (joinSep [',', '\n'] ((r0 :: rt).map fun z =>
        ' ' :: ' ' :: jsonRecordChars z) ++ ('\n' :: ']' :: []))) = '{' :: (Y ++ W) := by
      rw [skipWs_newline, hW, skipWs_space, skipWs_space, hY, List.cons_append,
        skipWs_lbrace]
    have hfuel : ∀ z ∈ r0 :: rt, z.length + (r0 :: rt).length ≤
        (jsonStringifyRows (r0 :: rt)).data.length + 1 := by
      intro z hz
      have := rowsChars_fuel_ok (r0 :: rt) z hz
      rw [hdata]
      omega
    simp only [parseJsonRecords, hdata, hshape, skipWs_lbracket, hskip]
    rw [parseElements_render (r0 :: rt) _ [] [] (by simp) hnd
      (by simpa [hdata, hshape] using hfuel)]
    simp [skipWs_nil]

/-! ### Shared helpers for the claims -/

theorem filteredRowsOf_sublist (rows : List Record) (term : String) :
    (filteredRowsOf rows term).Sublist rows := by
  by_cases h : term = ""
  · simp only [filteredRowsOf, if_pos h]
    exact List.take_sublist _ _
  · simp only [filteredRowsOf, if_neg h]
    exact (List.take_sublist _ _).trans (List.filter_sublist _)

theorem buildSheet_rows_keys_nodup (name : String) (raw : List (List String)) :
    ∀ r ∈ (buildSheet name raw).rows, (keysOf r).Nodup := by
  intro r hr
  cases raw with
  | nil => simp [buildSheet] at hr
  | cons h0 drs =>
    simp only [buildSheet, List.mem_map] at hr
    obtain ⟨row, _, rfl⟩ := hr
    exact keysOf_buildRecord_nodup _ _

/-- A loaded one-sheet example state, used as concrete input below. -/
def demoSheet : SheetRows := buildSheet "S" [["A"], ["1"]]

/-- A UI state in which a workbook is already successfully loaded. -/
def loadedState : UIState :=
  { selectedSheets := [demoSheet], activeSheetIndex := 0, fileMeta := some "data.xlsx",
    error := none, searchTerm := "" }

/-- 500 one-column records, for the truncation example. -/
def rows500 : List Record := (List.range 500).map fun i => [("id", toString i)]

/-! ### The claims -/

/-- Claim C1, as stated, is false at a concrete input: an invalid-file-type
rejection stores an error but leaves the previously loaded workbook in
`selectedSheets`, so a stored error and a non-empty workbook coexist. -/
theorem claim_C1_counterexample :
    (handleFile loadedState "report.pdf" (Except.ok [])).error = some invalidFileTypeError ∧
    (handleFile loadedState "report.pdf" (Except.ok [])).selectedSheets ≠ [] := by
  constructor
  · decide
  · decide

/-- Claim C1 (amended): the read-failure/parse-failure and empty-data error
outcomes of the upload clear the workbook and file metadata (resetting to "no
data loaded"), while the invalid-file-type rejection only stores the error and
leaves the rest of the state — including a previously loaded workbook —
unchanged. -/
theorem claim_C1 (st : UIState) (f msg : String) (wb : RawWorkbook)
    (hv : isValidFileType f = true) (hw : buildSheetData wb = []) :
    handleFile st f (Except.error msg) =
      { st with error := some { title := readFailTitle, detail := msg },
                selectedSheets := [], fileMeta := none } ∧
    handleFile st f (Except.ok wb) =
      { st with error := some emptyDataError, selectedSheets := [], fileMeta := none } ∧
    ∀ (f2 : String) (pr : Except String RawWorkbook), isValidFileType f2 = false →
      handleFile st f2 pr = { st with error := some invalidFileTypeError } := by
  refine ⟨?_, ?_, ?_⟩
  · simp [handleFile, hv]
  · simp [handleFile, hv, hw]
  · intro f2 pr h2
    simp [handleFile, h2]

/-- Claim C1 witness: the amended theorem applied to a concrete failing read
over a loaded state. -/
theorem claim_C1_witness :
    handleFile loadedState "a.xlsx" (Except.error "boom") =
      { loadedState with
          error := some { title := readFailTitle, detail := "boom" },
          selectedSheets := [], fileMeta := none } :=
  (claim_C1 loadedState "a.xlsx" "boom" [] (by decide) rfl).1

/-- Claim C2, as stated, is false at concrete inputs: for duplicate headers
["A", "A"] the header row of the produced CSV is "A" (records cannot carry a
duplicate key), not the sheet's header order "A,A" — the claimed header line
is not even a prefix of the output; and a sheet with zero data rows produces
an empty CSV with no header row at all. -/
theorem claim_C2_counterexample :
    (csvRowText (buildSheet "S" [["A", "A"], ["1", "2"]]).headers).data.isPrefixOf
        (downloadAsCsvText (buildSheet "S" [["A", "A"], ["1", "2"]]).rows).data = false ∧
    downloadAsCsvText (buildSheet "E" [["Name", "Age"]]).rows = "" := by
  constructor
  · decide
  · decide

/-- Claim C2 (amended): for a sheet with at least one data row and
duplicate-free headers, the CSV export is the header row (in the sheet's
header order) followed by one line per record in order, each field rendered
with standard CSV quoting and missing keys as empty cells; a sheet with zero
data rows yields an empty CSV (no header row), and duplicate headers collapse
to a single column (see the counterexample). -/
theorem claim_C2 (name : String) (hr : List String) (drs : List (List String))
    (hnd : (buildSheet name (hr :: drs)).headers.Nodup) (hne : drs ≠ []) :
    downloadAsCsvText (buildSheet name (hr :: drs)).rows =
      joinWith "\n" (csvRowText (buildSheet name (hr :: drs)).headers ::
        (buildSheet name (hr :: drs)).rows.map fun r =>
          csvRowText ((buildSheet name (hr :: drs)).headers.map (lookupCell r))) ++ "\n" := by
  cases drs with
  | nil => exact absurd rfl hne
  | cons d0 ds =>
    have hkeys : ∀ r ∈ (buildSheet name (hr :: d0 :: ds)).rows,
        keysOf r = (buildSheet name (hr :: d0 :: ds)).headers := by
      intro r hrw
      simp only [buildSheet, List.mem_map] at hrw ⊢
      obtain ⟨row, _, rfl⟩ := hrw
      exact keysOf_buildRecord_of_nodup _ row hnd
    have hhd : csvHeadersOf (buildSheet name (hr :: d0 :: ds)).rows =
        (buildSheet name (hr :: d0 :: ds)).headers := by
      apply csvHeadersOf_of_keys _ _ _ hnd hkeys
      simp [buildSheet]
    show joinWith "\n" (csvRowText (csvHeadersOf (buildSheet name (hr :: d0 :: ds)).rows) ::
        (buildSheet name (hr :: d0 :: ds)).rows.map fun r =>
          csvRowText ((csvHeadersOf (buildSheet name (hr :: d0 :: ds)).rows).map
            (lookupCell r))) ++ "\n" = _
    rw [hhd]

/-- Claim C2 witness: the amended theorem at a concrete sheet whose second
field contains a comma, exercising the quoting. -/
theorem claim_C2_witness :
    downloadAsCsvText (buildSheet "S" [["a", "b"], ["1", "x,y"]]).rows =
      joinWith "\n" (csvRowText (buildSheet "S" [["a", "b"], ["1", "x,y"]]).headers ::
        (buildSheet "S" [["a", "b"], ["1", "x,y"]]).rows.map fun r =>
          csvRowText ((buildSheet "S" [["a", "b"], ["1", "x,y"]]).headers.map
            (lookupCell r))) ++ "\n" :=
  claim_C2 "S" ["a", "b"] [["1", "x,y"]] (by decide) (by decide)

/-- Claim C3: for every sheet produced by normalisation, `columnCount` equals
the number of headers, and every record's key set is exactly the set of
headers — also when the header row contains duplicate labels. -/
theorem claim_C3 (wb : RawWorkbook) (sheet : SheetRows) (hs : sheet ∈ buildSheetData wb) :
    sheet.columnCount = sheet.headers.length ∧
    ∀ r ∈ sheet.rows, ∀ k : String, k ∈ keysOf r ↔ k ∈ sheet.headers := by
  obtain ⟨⟨n, raw⟩, _, rfl⟩ := List.mem_map.mp hs
  cases raw with
  | nil => exact ⟨rfl, by simp [buildSheet]⟩
  | cons h0 drs =>
    refine ⟨rfl, ?_⟩
    intro r hrw k
    simp only [buildSheet, List.mem_map] at hrw ⊢
    obtain ⟨row, _, rfl⟩ := hrw
    exact mem_keysOf_buildRecord _ row k

/-- Claim C3 witness: the theorem applied to a concrete workbook whose header
row has a duplicate label. -/
theorem claim_C3_witness :
    "A" ∈ keysOf [("A", "2")] ↔ "A" ∈ (buildSheet "S" [["A", "A"], ["1", "2"]]).headers :=
  (claim_C3 [("S", [["A", "A"], ["1", "2"]])] (buildSheet "S" [["A", "A"], ["1", "2"]])
    (by decide)).2 [("A", "2")] (by decide) "A"

/-- Claim C4: a decoded workbook with zero sheets makes the upload fail with
the empty-data error and leaves no workbook loaded, while a workbook whose
single sheet has zero rows is a successful parse yielding a `SheetRows` with
empty headers, no records and zero counts. -/
theorem claim_C4 (st : UIState) (f n : String) (hv : isValidFileType f = true) :
    handleFile st f (Except.ok []) =
      { st with error := some emptyDataError, selectedSheets := [], fileMeta := none } ∧
    handleFile st f (Except.ok [(n, [])]) =
      { st with selectedSheets := [buildSheet n []], activeSheetIndex := 0,
                fileMeta := some f, error := none } ∧
    buildSheet n [] =
      { name := n, headers := [], rows := [], rowCount := 0, columnCount := 0 } := by
  refine ⟨?_, ?_, rfl⟩
  · simp [handleFile, hv, buildSheetData]
  · simp [handleFile, hv, buildSheetData]

/-- Claim C4 witness: the theorem applied to a concrete zero-sheet decode. -/
theorem claim_C4_witness :
    handleFile loadedState "a.xlsx" (Except.ok []) =
      { loadedState with
          error := some emptyDataError, selectedSheets := [], fileMeta := none } :=
  (claim_C4 loadedState "a.xlsx" "Sheet1" (by decide)).1

/-- Claim C5: a file whose lower-cased name ends in none of the allowed
extensions is rejected with the invalid-file-type error independently of any
read/parse outcome (the result does not mention the parse result at all), and
nothing but the stored error changes — in particular the workbook state is
untouched. -/
theorem claim_C5 (st : UIState) (f : String) (pr : Except String RawWorkbook)
    (h : isValidFileType f = false) :
    handleFile st f pr = { st with error := some invalidFileTypeError } := by
  simp [handleFile, h]

/-- Claim C5 witness: rejecting `report.pdf` over a loaded state. -/
theorem claim_C5_witness :
    handleFile loadedState "report.pdf" (Except.ok [("S", [["x"]])]) =
      { loadedState with error := some invalidFileTypeError } :=
  claim_C5 loadedState "report.pdf" (Except.ok [("S", [["x"]])]) (by decide)

/-- Claim C6: the preview filter returns the first 200 records for the empty
term and otherwise exactly the records some of whose lower-cased field values
contain the lower-cased term, in original order, truncated to 200; containment
is genuine substring occurrence, and "Delhi" is matched by "delhi". -/
theorem claim_C6 :
    (∀ (rows : List Record) (term : String),
      filteredRowsOf rows term =
        (if term = "" then rows
         else rows.filter (rowMatches (lowerStr term))).take maxRowsPreview) ∧
    (∀ (rows : List Record) (term : String), (filteredRowsOf rows term).Sublist rows) ∧
    (∀ s pat : String, strIncludes s pat = true ↔
      ∃ pre post, s.data = pre ++ pat.data ++ post) ∧
    filteredRowsOf [[("City", "Delhi")]] "delhi" = [[("City", "Delhi")]] := by
  refine ⟨?_, filteredRowsOf_sublist, ?_, by decide⟩
  · intro rows term
    by_cases h : term = "" <;> simp [filteredRowsOf, h]
  · intro s pat
    exact containsSub_iff pat.data s.data

set_option maxRecDepth 4000 in
/-- Stringified numbers below 500 contain no comma, quote or newline, so CSV
quoting leaves them unchanged. -/
theorem csvQuote_toString_small : ∀ i : Nat, i < 500 → csvQuote (toString i) = toString i := by
  decide

/-- For a non-empty record list the CSV text is the derived header row
followed by one rendered line per record. -/
theorem downloadAsCsvText_ne_nil (rows : List Record) (h : rows ≠ []) :
    downloadAsCsvText rows =
      joinWith "\n" (csvRowText (csvHeadersOf rows) ::
        rows.map fun r => csvRowText ((csvHeadersOf rows).map (lookupCell r))) ++ "\n" := by
  cases rows with
  | nil => exact absurd rfl h
  | cons a t => rfl

/-- The CSV export of the 500-record sheet: the header line "id" followed by
all 500 values "0".."499", one line per record, nothing truncated. -/
theorem csv_export_rows500 :
    downloadAsCsvText rows500 =
      joinWith "\n" ("id" :: (List.range 500).map toString) ++ "\n" := by
  have hne : rows500 ≠ [] := by simp [rows500]
  have hhd : csvHeadersOf rows500 = ["id"] := by
    apply csvHeadersOf_of_keys rows500 ["id"] hne (by simp)
    intro r hr
    obtain ⟨i, _, rfl⟩ := List.mem_map.mp hr
    rfl
  rw [downloadAsCsvText_ne_nil rows500 hne, hhd]
  have hmap : rows500.map (fun r => csvRowText (["id"].map (lookupCell r))) =
      (List.range 500).map toString := by
    simp only [rows500, List.map_map]
    refine List.map_congr_left fun i hi => ?_
    show csvRowText [lookupCell [("id", toString i)] "id"] = toString i
    rw [show lookupCell [("id", toString i)] "id" = toString i from by simp [lookupCell]]
    exact csvQuote_toString_small i (List.mem_range.mp hi)
  rw [hmap, show csvRowText ["id"] = "id" from rfl]

/-- Claim C7: filtering only derives a subsequence of the untouched records
(the sheet is never modified), the exports do not depend on the search term,
and for 500 records with an empty term the preview has exactly 200 rows while
the JSON export still serialises all 500 (parsing it back returns all 500
records) and the CSV export renders the header row plus all 500 record
lines. -/
theorem claim_C7 :
    (∀ (rows : List Record) (term : String), (filteredRowsOf rows term).Sublist rows) ∧
    (∀ (st : UIState) (term : String),
      exportJsonOf { st with searchTerm := term } = exportJsonOf st ∧
      exportCsvOf { st with searchTerm := term } = exportCsvOf st) ∧
    rows500.length = 500 ∧
    (filteredRowsOf rows500 "").length = 200 ∧
    parseJsonRecords (jsonStringifyRows rows500) = some rows500 ∧
    downloadAsCsvText rows500 =
      joinWith "\n" ("id" :: (List.range 500).map toString) ++ "\n" := by
  refine ⟨filteredRowsOf_sublist, fun st term => ⟨rfl, rfl⟩, ?_, ?_, ?_, csv_export_rows500⟩
  · simp [rows500]
  · rw [show filteredRowsOf rows500 "" = rows500.take maxRowsPreview from by
      simp [filteredRowsOf]]
    simp [rows500, maxRowsPreview]
  · apply parse_stringify
    intro r hr
    obtain ⟨i, _, rfl⟩ := List.mem_map.mp hr
    simp [keysOf]

/-- Claim C8: serialising a normalised sheet's full record list with the JSON
export and parsing the text back returns exactly the original records. -/
theorem claim_C8 (wb : RawWorkbook) (sheet : SheetRows) (hs : sheet ∈ buildSheetData wb) :
    parseJsonRecords (downloadAsJsonText sheet) = some sheet.rows := by
  obtain ⟨⟨n, raw⟩, _, rfl⟩ := List.mem_map.mp hs
  show parseJsonRecords (jsonStringifyRows _) = _
  exact parse_stringify _ (buildSheet_rows_keys_nodup n raw)

/-- Claim C8 witness: the round trip at a concrete two-column sheet. -/
theorem claim_C8_witness :
    parseJsonRecords (downloadAsJsonText (buildSheet "S" [["A", "B"], ["1", "2"]])) =
      some (buildSheet "S" [["A", "B"], ["1", "2"]]).rows :=
  claim_C8 [("S", [["A", "B"], ["1", "2"]])] (buildSheet "S" [["A", "B"], ["1", "2"]])
    (by decide)

/-- Claim C9: for a non-empty sheet the headers are the trimmed first-row
cells, with an empty or whitespace-only cell replaced by "Column (i+1)"; in
particular ["Name", "", "Age"] yields ["Name", "Column 2", "Age"]. -/
theorem claim_C9 :
    (∀ (name : String) (hr : List String) (drs : List (List String)),
      (buildSheet name (hr :: drs)).headers.length = hr.length ∧
      ∀ i : Nat, i < hr.length →
        (buildSheet name (hr :: drs)).headers.getD i "" =
          (if strTrim (hr.getD i "") = "" then "Column " ++ toString (i + 1)
           else strTrim (hr.getD i ""))) ∧
    (buildSheet "S" [["Name", "", "Age"]]).headers = ["Name", "Column 2", "Age"] := by
  refine ⟨?_, by decide⟩
  intro name hr drs
  refine ⟨mkHeadersFrom_length 0 hr, ?_⟩
  intro i hi
  have h := mkHeadersFrom_getD hr 0 i hi
  simpa [buildSheet, mkHeader, Nat.zero_add] using h

/-- Claim C9 witness: the positional characterisation applied at index 1 of
the header row ["Name", "", "Age"]. -/
theorem claim_C9_witness :
    (buildSheet "S" [["Name", "", "Age"]]).headers.getD 1 "" =
      (if strTrim ((["Name", "", "Age"] : List String).getD 1 "") = ""
       then "Column " ++ toString (1 + 1)
       else strTrim ((["Name", "", "Age"] : List String).getD 1 "")) :=
  (claim_C9.1 "S" ["Name", "", "Age"] []).2 1 (by decide)

/-- Claim C10: a successful upload resets the active sheet index to 0 and
keeps the search term; switching sheets keeps the search term; hence the
preview of the freshly loaded workbook is the first sheet's records filtered
by the pre-upload search term. -/
theorem claim_C10 (st : UIState) (f : String) (wb : RawWorkbook)
    (hv : isValidFileType f = true) (hne : buildSheetData wb ≠ []) :
    (handleFile st f (Except.ok wb)).activeSheetIndex = 0 ∧
    (handleFile st f (Except.ok wb)).searchTerm = st.searchTerm ∧
    (∀ (st2 : UIState) (i : Nat), (setActiveSheet st2 i).searchTerm = st2.searchTerm) ∧
    filteredRows (handleFile st f (Except.ok wb)) =
      filteredRowsOf ((buildSheetData wb).getD 0 (buildSheet "" [])).rows st.searchTerm := by
  have hne' : (buildSheetData wb).isEmpty = false := by
    cases h : buildSheetData wb with
    | nil => exact absurd h hne
    | cons a t => rfl
  have hstate : handleFile st f (Except.ok wb) =
      { st with selectedSheets := buildSheetData wb, activeSheetIndex := 0,
                fileMeta := some f, error := none } := by
    simp [handleFile, hv, hne']
  rw [hstate]
  refine ⟨rfl, rfl, fun st2 i => rfl, ?_⟩
  cases h : buildSheetData wb with
  | nil => exact absurd h hne
  | cons s0 srest =>
    simp [filteredRows, currentSheet, List.getD]

/-- Claim C10 witness: a concrete upload over a state with a pending search
term. -/
theorem claim_C10_witness :
    (handleFile loadedState "a.xlsx" (Except.ok [("S", [["A"], ["1"]])])).activeSheetIndex
      = 0 :=
  (claim_C10 loadedState "a.xlsx" [("S", [["A"], ["1"]])] (by decide) (by decide)).1

end ExcelExtractor
